import Mathlib

/-!
Shallow embedding of `src/@here/harp-mapview/lib/ViewIntersection.ts`: the
view-dependent tile-selection engine (class `ViewIntersection`), together with
the small collaborator surface it consumes (geo boxes, tile keys, tiling
scheme, data sources).  Geographic coordinates are embedded as exact rationals
(`ℚ`), JS `Map` objects as insertion-ordered association lists, and the
unbounded `while` loop of `compute` as a fuel-indexed loop that returns `none`
when the fuel runs out (a completed call is one that returns `some`).
-/

namespace ViewIntersectionModel

/-! ## Association-list model of a JS `Map` -/

/-- Insertion-ordered map with JavaScript `Map` semantics, represented as an
association list: `set` overwrites an existing key in place and appends fresh
keys at the end; `delete` removes the key; `update` rewrites the value stored
at a key in place (used for the `get(zl)!` + in-place mutation pattern of the
source, where the inner map object is reached through the outer map). -/
abbrev JMap (K V : Type) : Type := List (K × V)

namespace JMap

variable {K V : Type} [DecidableEq K]

def empty : JMap K V := []

def get? : JMap K V → K → Option V
  | [], _ => none
  | p :: rest, k => if p.1 = k then some p.2 else get? rest k

def set (m : JMap K V) (k : K) (v : V) : JMap K V :=
  if m.any fun p => decide (p.1 = k) then
    m.map fun p => if p.1 = k then (k, v) else p
  else
    m ++ [(k, v)]

def delete (m : JMap K V) (k : K) : JMap K V :=
  m.filter fun p => decide (p.1 ≠ k)

def update (m : JMap K V) (k : K) (g : V → V) : JMap K V :=
  m.map fun p => if p.1 = k then (p.1, g p.2) else p

end JMap

/-- JS `Set` built from a list: deduplicate, keeping the first occurrence of
each element (iteration order of a JS `Set`). -/
def jsDedup (l : List ℕ) : List ℕ :=
  l.foldl (fun acc x => if x ∈ acc then acc else acc ++ [x]) []

/-! ## Geographic data model (harp-geoutils collaborators) -/

/-- Source `GeoCoordinates(latitude, longitude, altitude)` with exact rational
coordinates in degrees/meters. -/
structure GeoCoordinates where
  latitude : ℚ
  longitude : ℚ
  altitude : ℚ
deriving DecidableEq, Repr

/-- Source `GeoBox(southWest, northEast)`: axis-aligned geographic rectangle. -/
structure GeoBox where
  southWest : GeoCoordinates
  northEast : GeoCoordinates
deriving DecidableEq, Repr

def GeoBox.west (g : GeoBox) : ℚ := g.southWest.longitude
def GeoBox.east (g : GeoBox) : ℚ := g.northEast.longitude
def GeoBox.south (g : GeoBox) : ℚ := g.southWest.latitude
def GeoBox.north (g : GeoBox) : ℚ := g.northEast.latitude

/-- Source constant `MaxError = 1E-7` (line 27). -/
def MaxError : ℚ := 1 / 10000000

/-- Source `geoBoxesIntersect` (ViewIntersection.ts lines 37-44), translated
condition by condition. -/
def geoBoxesIntersect (geoBoxA geoBoxB : GeoBox) : Bool :=
  decide (geoBoxA.west < geoBoxB.east - MaxError) &&
  decide (geoBoxA.east ≥ geoBoxB.west + MaxError) &&
  decide (geoBoxA.south ≤ geoBoxB.north - MaxError) &&
  decide (geoBoxA.north ≥ geoBoxB.south + MaxError)

/-- Replace both altitude fields of a box, leaving the 2D extents unchanged
(used to express that altitude plays no role in the intersection test). -/
def GeoBox.withAltitudes (g : GeoBox) (amin amax : ℚ) : GeoBox :=
  { southWest := { g.southWest with altitude := amin }
    northEast := { g.northEast with altitude := amax } }

/-- Swap the longitude extents with the latitude extents of a box (transpose
the two axes), keeping altitudes. -/
def transposeGeoBox (g : GeoBox) : GeoBox :=
  { southWest := { latitude := g.southWest.longitude
                   longitude := g.southWest.latitude
                   altitude := g.southWest.altitude }
    northEast := { latitude := g.northEast.longitude
                   longitude := g.northEast.latitude
                   altitude := g.northEast.altitude } }

/-! ## Tile keys and the tiling scheme collaborator -/

/-- Source `TileKey.fromRowColumnLevel(row, column, level)`. -/
structure TileKey where
  row : ℕ
  column : ℕ
  level : ℕ
deriving DecidableEq, Repr

/-- The collaborator contract of a tiling scheme (spec section 6):
`getGeoBox(tileKey)` and `getSubTileKeys(tileKey)`. -/
structure TilingScheme where
  getGeoBox : TileKey → GeoBox
  getSubTileKeys : TileKey → List TileKey

/-- Source `getGeoBox` helper (ViewIntersection.ts lines 29-35): the child's geo box
with both longitudes shifted by `360 * offset`. -/
def getGeoBox (tilingScheme : TilingScheme) (childTileKey : TileKey) (offset : ℤ) : GeoBox :=
  let geoBox := tilingScheme.getGeoBox childTileKey
  let longitudeOffset : ℚ := 360 * (offset : ℚ)
  { southWest := { geoBox.southWest with longitude := geoBox.southWest.longitude + longitudeOffset }
    northEast := { geoBox.northEast with longitude := geoBox.northEast.longitude + longitudeOffset } }

/-- A JS number used as a tile area: either `Infinity` or a finite value. -/
inductive AreaVal where
  | infinity : AreaVal
  | finite : ℚ → AreaVal
deriving DecidableEq, Repr

/-- The JS comparison `area < target` (`Infinity < target` is false). -/
def AreaVal.ltQ : AreaVal → ℚ → Bool
  | .infinity, _ => false
  | .finite a, t => decide (a < t)

/-- Modelled from the spec: class `TileKeyEntry` lives in
`FrustumIntersection.ts`, which is not among the sources; the spec describes it
as "TileEntry: { tileKey, offset, area (screen-space, clip-space-squared
units), distance (camera-space depth), minElevation, maxElevation }" with
constructor defaults of zero elevation range (section 4.3) and zero
distance. -/
structure TileKeyEntry where
  tileKey : TileKey
  area : AreaVal
  offset : ℤ
  minElevation : ℚ
  maxElevation : ℚ
  distance : ℚ
deriving DecidableEq, Repr

/-- Modelled from the spec: `TileOffsetUtils.getKeyForTileKeyAndOffset` lives
in `Utils.ts`, which is not among the sources; the spec (section 4.1) requires
"a single integer/composite value deterministically derived from (TileKey,
Offset), collision-free", modelled here as the collision-free composite
pair. -/
def getKeyForTileKeyAndOffset (tileKey : TileKey) (offset : ℤ) : TileKey × ℤ :=
  (tileKey, offset)

/-- Inner map type: tile-offset key to entry. -/
abbrev TileKeyEntries := JMap (TileKey × ℤ) TileKeyEntry

/-- Outer map type: zoom level to inner map. -/
abbrev ZoomLevelTileKeyMap := JMap ℕ TileKeyEntries

/-! ## External collaborators of `ViewIntersection` -/

inductive ProjectionType where
  | Planar : ProjectionType
  | Spherical : ProjectionType
deriving DecidableEq, Repr

/-- The slice of `MapView` read by `ViewIntersection`: `geoBox`,
`viewportHeight` and `projection.type`. -/
structure MapView where
  geoBox : Option GeoBox
  viewportHeight : ℚ
  projectionType : ProjectionType
deriving DecidableEq, Repr

/-- Source `DataSource.shouldSubdivide(zoomLevel, tileKey)`; the zoom level argument
is `zoomLevels[i]`, which is `undefined` (here `none`) when the data-source
list is longer than the zoom-level list. -/
structure DataSource where
  shouldSubdivide : Option ℕ → TileKey → Bool

/-- Source `ElevationRangeSource`: in the live code of `compute` its value feeds only
the unused `useElevationRangeSource`/`obbIntersections`/`tileBounds` bindings,
so only its presence can matter. -/
structure ElevationRangeSource where
  elevationTilingScheme : TilingScheme

/-- Result of frustum intersection (ViewIntersection.ts lines 61-72). -/
structure IntersectionResult where
  tileKeyEntries : ZoomLevelTileKeyMap
  calculationFinal : Bool
deriving DecidableEq, Repr

/-- The mutable state of a `ViewIntersection` object together with its
constructor parameters.  The private view-projection matrix is omitted: after
`updateFrustum` it is read only by the commented-out
`computeTileAreaAndDistance`, never by live code. -/
structure ViewIntersection where
  mapView : MapView
  tileWrappingEnabled : Bool
  enableMixedLod : Bool
  rootTileKeys : List TileKeyEntry
  tileKeyEntries : ZoomLevelTileKeyMap
  worldBox : Option GeoBox
deriving DecidableEq, Repr

/-- Source `computeRequiredInitialRootTileKeys` (lines 311-323).  Both branches push a
single level-0, offset-0 root entry with area `Infinity` (the wraparound branch
carries a FIXME in the source and also pushes just one copy); the 4-argument
constructor call of the first branch leaves `maxElevation` at its default 0. -/
def computeRequiredInitialRootTileKeys (vi : ViewIntersection) : List TileKeyEntry :=
  let rootTileKey : TileKey := ⟨0, 0, 0⟩
  let tileWrappingEnabled := vi.mapView.projectionType = ProjectionType.Planar
  if ¬tileWrappingEnabled ∨ vi.tileWrappingEnabled = false then
    [⟨rootTileKey, AreaVal.infinity, 0, 0, 0, 0⟩]
  else
    [⟨rootTileKey, AreaVal.infinity, 0, 0, 0, 0⟩]

/-- Source `updateFrustum` (lines 110-125): capture the world box (a degenerate zero
box when `mapView.geoBox` is undefined) and reseed the root tile keys.  The
view-projection matrix product is omitted (see `ViewIntersection`). -/
def ViewIntersection.updateFrustum (vi : ViewIntersection) : ViewIntersection :=
  let worldBox :=
    match vi.mapView.geoBox with
    | none => GeoBox.mk ⟨0, 0, 0⟩ ⟨0, 0, 0⟩
    | some gb => gb
  let vi' := { vi with worldBox := some worldBox }
  { vi' with rootTileKeys := computeRequiredInitialRootTileKeys vi' }

/-! ## The `compute` traversal -/

/-- The per-call context of the traversal loop: the values captured before the
`while` loop in `compute`. -/
structure ComputeCtx where
  tilingScheme : TilingScheme
  dataSources : List DataSource
  zoomLevels : List ℕ
  uniqueZoomLevels : List ℕ
  worldBox : GeoBox
  enableMixedLod : Bool
  targetTileArea : ℚ

/-- Source expression `dataSources.some((ds, i) => ds.shouldSubdivide(zoomLevels[i], tileKey))`
(lines 194-196). -/
def anySubdivide (dataSources : List DataSource) (zoomLevels : List ℕ) (tileKey : TileKey) : Bool :=
  dataSources.enum.any fun p => p.2.shouldSubdivide zoomLevels[p.1]? tileKey

/-- The `subTileEntry` built for a surviving child (lines 233-243): constant
`area = 1` and `distance = 1`, elevations from the shifted geo box. -/
def mkSubTileEntry (ctx : ComputeCtx) (tileEntry : TileKeyEntry) (childTileKey : TileKey) :
    TileKeyEntry :=
  let geoBox := getGeoBox ctx.tilingScheme childTileKey tileEntry.offset
  ⟨childTileKey, AreaVal.finite 1, tileEntry.offset,
   geoBox.southWest.altitude, geoBox.northEast.altitude, 1⟩

/-- The body of the `for (const childTileKey of ...)` loop (lines 221-256),
acting on the pair of the zoom-level maps and the list of pushed entries. -/
def stepChild (ctx : ComputeCtx) (tileEntry : TileKeyEntry)
    (acc : ZoomLevelTileKeyMap × List TileKeyEntry) (childTileKey : TileKey) :
    ZoomLevelTileKeyMap × List TileKeyEntry :=
  if geoBoxesIntersect ctx.worldBox (getGeoBox ctx.tilingScheme childTileKey tileEntry.offset) then
    (ctx.uniqueZoomLevels.foldl
      (fun m zl =>
        if (mkSubTileEntry ctx tileEntry childTileKey).tileKey.level > zl then m
        else JMap.update m zl fun entries =>
          JMap.set entries (getKeyForTileKeyAndOffset childTileKey tileEntry.offset)
            (mkSubTileEntry ctx tileEntry childTileKey))
      acc.1,
     acc.2 ++ [mkSubTileEntry ctx tileEntry childTileKey])
  else
    acc

/-- Lines 206-219: remove the popped entry's tile-offset key from the map of
every zoom level strictly above the entry's own level. -/
def deleteParent (ctx : ComputeCtx) (tileEntry : TileKeyEntry)
    (maps : ZoomLevelTileKeyMap) : ZoomLevelTileKeyMap :=
  ctx.uniqueZoomLevels.foldl
    (fun m zl =>
      if tileEntry.tileKey.level ≥ zl then m
      else JMap.update m zl fun entries =>
        JMap.delete entries (getKeyForTileKeyAndOffset tileEntry.tileKey tileEntry.offset))
    maps

/-- One iteration of the `while` loop of `compute` (lines 185-257): process
one popped entry, returning the updated maps and the entries pushed onto the
work list. -/
def computeStep (ctx : ComputeCtx) (maps : ZoomLevelTileKeyMap) (tileEntry : TileKeyEntry) :
    ZoomLevelTileKeyMap × List TileKeyEntry :=
  if anySubdivide ctx.dataSources ctx.zoomLevels tileEntry.tileKey = false then
    (maps, [])
  else if ctx.enableMixedLod && AreaVal.ltQ tileEntry.area ctx.targetTileArea then
    (maps, [])
  else
    (ctx.tilingScheme.getSubTileKeys tileEntry.tileKey).foldl (stepChild ctx tileEntry)
      (deleteParent ctx tileEntry maps, [])

/-- The `while (workList.length > 0)` loop, fuel-indexed.  The work list is
kept top-first (JS pushes at the end and pops from the end, so freshly pushed
children are processed in reverse push order, modelled by prepending the
reversed push list). -/
def computeLoop (ctx : ComputeCtx) :
    ℕ → ZoomLevelTileKeyMap → List TileKeyEntry → Option ZoomLevelTileKeyMap
  | _, maps, [] => some maps
  | 0, _, _ :: _ => none
  | fuel + 1, maps, tileEntry :: rest =>
      let next := computeStep ctx maps tileEntry
      computeLoop ctx fuel next.1 (next.2.reverse ++ rest)

/-- The context captured before the `while` loop (lines 148-161): the
`calculationFinal` flag is initialized to `true` at line 148 and never
reassigned anywhere in `compute`; the target tile area is
`(256 / viewportHeight)^2` (line 154, guarded by an assertion that the
viewport height is nonzero); the unique zoom levels are the JS
`new Set(zoomLevels)` (line 161). -/
def mkComputeCtx (vi : ViewIntersection) (tilingScheme : TilingScheme)
    (zoomLevels : List ℕ) (dataSources : List DataSource) (worldBox : GeoBox) : ComputeCtx :=
  ⟨tilingScheme, dataSources, zoomLevels, jsDedup zoomLevels, worldBox,
   vi.enableMixedLod, (256 / vi.mapView.viewportHeight) ^ 2⟩

/-- The fresh `TileKeyEntry` copy built for a root entry in the seeding loop
(lines 168-174): area `Infinity`, distance at its default 0. -/
def seedEntry (item : TileKeyEntry) : TileKeyEntry :=
  ⟨item.tileKey, AreaVal.infinity, item.offset, item.minElevation, item.maxElevation, 0⟩

/-- Lines 163-182: create one empty inner map per distinct zoom level, then
insert a fresh copy of every root entry (area `Infinity`, default distance 0)
into every zoom-level map under its tile-offset key. -/
def seedMaps (uniqueZoomLevels : List ℕ) (roots : List TileKeyEntry) : ZoomLevelTileKeyMap :=
  let maps0 : ZoomLevelTileKeyMap :=
    uniqueZoomLevels.foldl (fun m zl => JMap.set m zl JMap.empty) JMap.empty
  roots.foldl
    (fun m item =>
      uniqueZoomLevels.foldl
        (fun m zl =>
          JMap.update m zl fun entries =>
            JMap.set entries (getKeyForTileKeyAndOffset item.tileKey item.offset) (seedEntry item))
        m)
    maps0

/-- Source `compute` (lines 136-259).  Returns the result together with the updated
object state; `none` means the fuel did not cover the traversal (the source
loop simply runs longer).  The bindings `useElevationRangeSource`,
`obbIntersections` and `tileBounds` (lines 155-160) are dead: nothing after
them reads their values (`computeTileAreaAndDistance` is commented out), so
they are not carried in the model.  The work list is seeded with the root
entries themselves (line 184) while the maps receive fresh copies. -/
def ViewIntersection.compute (vi : ViewIntersection) (tilingScheme : TilingScheme)
    (elevationRangeSource : Option ElevationRangeSource) (zoomLevels : List ℕ)
    (dataSources : List DataSource) (fuel : ℕ) :
    Option (IntersectionResult × ViewIntersection) :=
  let vi := { vi with tileKeyEntries := JMap.empty }
  match vi.worldBox with
  | none => some ({ tileKeyEntries := vi.tileKeyEntries, calculationFinal := true }, vi)
  | some worldBox =>
      let ctx := mkComputeCtx vi tilingScheme zoomLevels dataSources worldBox
      let maps1 := seedMaps ctx.uniqueZoomLevels vi.rootTileKeys
      match computeLoop ctx fuel maps1 vi.rootTileKeys.reverse with
      | none => none
      | some finalMaps =>
          some ({ tileKeyEntries := finalMaps, calculationFinal := true },
                { vi with tileKeyEntries := finalMaps })

/-! ## A concrete quadtree tiling scheme (for concrete runs) -/

/-- A standard quadtree geo box: level `l` splits the world
`[-180, 180] × [-90, 90]` into `2^l × 2^l` cells. -/
def quadGeoBox (tileKey : TileKey) : GeoBox :=
  let n : ℚ := 2 ^ tileKey.level
  { southWest := ⟨-90 + 180 * tileKey.row / n, -180 + 360 * tileKey.column / n, 0⟩
    northEast := ⟨-90 + 180 * (tileKey.row + 1) / n, -180 + 360 * (tileKey.column + 1) / n, 0⟩ }

/-- Quadtree child keys: the four sub-tiles at the next level. -/
def quadSubTileKeys (tileKey : TileKey) : List TileKey :=
  [⟨2 * tileKey.row, 2 * tileKey.column, tileKey.level + 1⟩,
   ⟨2 * tileKey.row, 2 * tileKey.column + 1, tileKey.level + 1⟩,
   ⟨2 * tileKey.row + 1, 2 * tileKey.column, tileKey.level + 1⟩,
   ⟨2 * tileKey.row + 1, 2 * tileKey.column + 1, tileKey.level + 1⟩]

def quadScheme : TilingScheme := ⟨quadGeoBox, quadSubTileKeys⟩


/-! ## Lemmas about the map model -/

namespace JMap

variable {K V : Type} [DecidableEq K]

theorem mem_set {m : JMap K V} {k : K} {v : V} {p : K × V} (h : p ∈ set m k v) :
    p = (k, v) ∨ p ∈ m := by
  unfold set at h
  split at h
  · rcases List.mem_map.mp h with ⟨q, hq, hfq⟩
    by_cases hk : q.1 = k
    · rw [if_pos hk] at hfq
      exact Or.inl hfq.symm
    · rw [if_neg hk] at hfq
      exact Or.inr (hfq ▸ hq)
  · rcases List.mem_append.mp h with h' | h'
    · exact Or.inr h'
    · exact Or.inl (List.mem_singleton.mp h')

theorem mem_set_self {m : JMap K V} {k : K} {v : V} : (k, v) ∈ set m k v := by
  unfold set
  split
  · rename_i hany
    rcases List.any_eq_true.mp hany with ⟨q, hq, hqk⟩
    refine List.mem_map.mpr ⟨q, hq, ?_⟩
    rw [if_pos (of_decide_eq_true hqk)]
  · exact List.mem_append.mpr (Or.inr (List.mem_singleton.mpr rfl))

theorem mem_set_of_mem_same {m : JMap K V} {k k' : K} {v : V} (h : (k', v) ∈ m) :
    (k', v) ∈ set m k v := by
  unfold set
  split
  · refine List.mem_map.mpr ⟨(k', v), h, ?_⟩
    by_cases hk : k' = k
    · simp [hk]
    · simp [hk]
  · exact List.mem_append.mpr (Or.inl h)

theorem mem_delete {m : JMap K V} {k : K} {p : K × V} (h : p ∈ delete m k) :
    p ∈ m ∧ p.1 ≠ k := by
  unfold delete at h
  have h' := List.mem_filter.mp h
  exact ⟨h'.1, by simpa using h'.2⟩

theorem mem_update_iff {m : JMap K V} {k : K} {g : V → V} {z : K} {w : V} :
    (z, w) ∈ update m k g ↔
      (z ≠ k ∧ (z, w) ∈ m) ∨ (z = k ∧ ∃ v, (k, v) ∈ m ∧ w = g v) := by
  unfold update
  constructor
  · intro h
    rcases List.mem_map.mp h with ⟨q, hq, hfq⟩
    by_cases hk : q.1 = k
    · rw [if_pos hk] at hfq
      have h1 : q.1 = z := congrArg Prod.fst hfq
      have h2 : g q.2 = w := congrArg Prod.snd hfq
      right
      refine ⟨h1 ▸ hk.symm ▸ rfl, q.2, ?_, h2.symm⟩
      · have : q = (k, q.2) := Prod.ext hk rfl
        exact this ▸ hq
    · rw [if_neg hk] at hfq
      subst hfq
      exact Or.inl ⟨hk, hq⟩
  · rintro (⟨hne, hm⟩ | ⟨rfl, v, hv, rfl⟩)
    · refine List.mem_map.mpr ⟨(z, w), hm, ?_⟩
      simp [hne]
    · refine List.mem_map.mpr ⟨(z, v), hv, ?_⟩
      simp

end JMap

theorem jsDedup_mem {l : List ℕ} {x : ℕ} : x ∈ jsDedup l ↔ x ∈ l := by
  have aux : ∀ (l : List ℕ) (acc : List ℕ),
      x ∈ l.foldl (fun acc x => if x ∈ acc then acc else acc ++ [x]) acc ↔ x ∈ acc ∨ x ∈ l := by
    intro l
    induction l with
    | nil => intro acc; simp
    | cons y l ih =>
        intro acc
        simp only [List.foldl_cons]
        rw [ih]
        by_cases hy : y ∈ acc
        · by_cases hxy : x = y
          · subst hxy
            simp [hy]
          · simp [hy, hxy]
        · by_cases hxy : x = y
          · subst hxy
            simp [hy]
          · simp [hy, hxy]
  unfold jsDedup
  rw [aux]
  simp

theorem jsDedup_nodup (l : List ℕ) : (jsDedup l).Nodup := by
  have aux : ∀ (l : List ℕ) (acc : List ℕ), acc.Nodup →
      (l.foldl (fun acc x => if x ∈ acc then acc else acc ++ [x]) acc).Nodup := by
    intro l
    induction l with
    | nil => intro acc h; simpa using h
    | cons y l ih =>
        intro acc h
        simp only [List.foldl_cons]
        by_cases hy : y ∈ acc
        · rw [if_pos hy]; exact ih acc h
        · rw [if_neg hy]
          exact ih _ (by simp [List.nodup_append, h, hy])
  exact aux l [] List.nodup_nil


/-! ## Fold lemmas for seeding and traversal -/

theorem foldl_set_preserve {K V : Type} [DecidableEq K] {l : List K} {m : JMap K V} {v : V} {z : K}
    (h : (z, v) ∈ m) : (z, v) ∈ l.foldl (fun m k => JMap.set m k v) m := by
  induction l generalizing m with
  | nil => exact h
  | cons y l ih => exact ih (JMap.mem_set_of_mem_same h)

theorem foldl_set_mem {K V : Type} [DecidableEq K] {l : List K} {m : JMap K V} {v : V} {z : K}
    (hz : z ∈ l) : (z, v) ∈ l.foldl (fun m k => JMap.set m k v) m := by
  induction l generalizing m with
  | nil => cases hz
  | cons y l ih =>
      rw [List.foldl_cons]
      rcases List.mem_cons.mp hz with rfl | hz'
      · exact foldl_set_preserve JMap.mem_set_self
      · exact ih hz'

theorem foldl_update_not_mem {K V : Type} [DecidableEq K] {g : V → V} {l : List K}
    {m : JMap K V} {z : K} {w : V} (hz : z ∉ l) (h : (z, w) ∈ m) :
    (z, w) ∈ l.foldl (fun m k => JMap.update m k g) m := by
  induction l generalizing m with
  | nil => exact h
  | cons y l ih =>
      have hzy : z ≠ y := fun e => hz (e ▸ List.mem_cons_self y l)
      exact ih (fun hl => hz (List.mem_cons_of_mem _ hl))
        (JMap.mem_update_iff.mpr (Or.inl ⟨hzy, h⟩))

theorem foldl_update_mem {K V : Type} [DecidableEq K] {g : V → V} {l : List K}
    {m : JMap K V} {z : K} {w : V} (hl : l.Nodup) (hz : z ∈ l) (h : (z, w) ∈ m) :
    (z, g w) ∈ l.foldl (fun m k => JMap.update m k g) m := by
  induction l generalizing m with
  | nil => cases hz
  | cons y l ih =>
      rw [List.foldl_cons]
      rcases List.mem_cons.mp hz with rfl | hz'
      · exact foldl_update_not_mem (List.nodup_cons.mp hl).1
          (JMap.mem_update_iff.mpr (Or.inr ⟨rfl, w, h, rfl⟩))
      · have hzy : z ≠ y := fun e => (List.nodup_cons.mp hl).1 (e ▸ hz')
        exact ih (List.nodup_cons.mp hl).2 hz'
          (JMap.mem_update_iff.mpr (Or.inl ⟨hzy, h⟩))

/-- Seeding with a single root entry puts exactly the singleton inner map at
every deduplicated zoom level. -/
theorem seedMaps_singleton_mem {uzl : List ℕ} {e : TileKeyEntry} {zl : ℕ}
    (hnd : uzl.Nodup) (hzl : zl ∈ uzl) :
    (zl, ([(getKeyForTileKeyAndOffset e.tileKey e.offset, seedEntry e)] : TileKeyEntries))
      ∈ seedMaps uzl [e] := by
  unfold seedMaps
  simp only [List.foldl_cons, List.foldl_nil]
  have h0 : (zl, (JMap.empty : TileKeyEntries))
      ∈ uzl.foldl (fun m z => JMap.set m z JMap.empty) JMap.empty := foldl_set_mem hzl
  have h1 := foldl_update_mem
    (g := fun entries =>
      JMap.set entries (getKeyForTileKeyAndOffset e.tileKey e.offset) (seedEntry e))
    hnd hzl h0
  simpa [JMap.set, JMap.empty] using h1

/-! ## Basic traversal lemmas -/

theorem anySubdivide_eq_false {dss : List DataSource} {zls : List ℕ} {tk : TileKey}
    (h : ∀ ds ∈ dss, ∀ oz tk', ds.shouldSubdivide oz tk' = false) :
    anySubdivide dss zls tk = false := by
  unfold anySubdivide
  rw [List.any_eq_false]
  intro p hp
  have hmem : p.2 ∈ dss := List.getElem?_mem (List.mem_enum_iff_getElem?.mp hp)
  simp [h p.2 hmem]

theorem computeStep_not_subdivide {ctx : ComputeCtx} {maps : ZoomLevelTileKeyMap}
    {e : TileKeyEntry} (h : anySubdivide ctx.dataSources ctx.zoomLevels e.tileKey = false) :
    computeStep ctx maps e = (maps, []) := by
  simp [computeStep, h]

theorem computeLoop_no_subdivide {ctx : ComputeCtx}
    (h : ∀ tk, anySubdivide ctx.dataSources ctx.zoomLevels tk = false) :
    ∀ fuel (work : List TileKeyEntry) (maps : ZoomLevelTileKeyMap), work.length ≤ fuel →
      computeLoop ctx fuel maps work = some maps := by
  intro fuel
  induction fuel with
  | zero =>
      intro work maps hlen
      have : work = [] := List.eq_nil_of_length_eq_zero (Nat.le_zero.mp hlen)
      subst this
      rfl
  | succ f ih =>
      intro work maps hlen
      cases work with
      | nil => rfl
      | cons e rest =>
          show computeLoop ctx f (computeStep ctx maps e).1
            ((computeStep ctx maps e).2.reverse ++ rest) = some maps
          rw [computeStep_not_subdivide (h e.tileKey)]
          exact ih rest maps (Nat.succ_le_succ_iff.mp (by simpa using hlen))


/-! ## Branch analysis of `compute` -/

theorem compute_def_none {vi : ViewIntersection} {ts : TilingScheme}
    {ers : Option ElevationRangeSource} {zls : List ℕ} {dss : List DataSource} {fuel : ℕ}
    (hwb : vi.worldBox = none) :
    vi.compute ts ers zls dss fuel =
      some ({ tileKeyEntries := JMap.empty, calculationFinal := true },
            { vi with tileKeyEntries := JMap.empty }) := by
  unfold ViewIntersection.compute
  rw [show ({ vi with tileKeyEntries := (JMap.empty : ZoomLevelTileKeyMap) }
      : ViewIntersection).worldBox = vi.worldBox from rfl, hwb]

theorem compute_def_some {vi : ViewIntersection} {ts : TilingScheme}
    {ers : Option ElevationRangeSource} {zls : List ℕ} {dss : List DataSource} {fuel : ℕ}
    {wb : GeoBox} (hwb : vi.worldBox = some wb) :
    vi.compute ts ers zls dss fuel =
      match computeLoop (mkComputeCtx vi ts zls dss wb) fuel
          (seedMaps (jsDedup zls) vi.rootTileKeys) vi.rootTileKeys.reverse with
      | none => none
      | some finalMaps =>
          some ({ tileKeyEntries := finalMaps, calculationFinal := true },
                { vi with tileKeyEntries := finalMaps }) := by
  unfold ViewIntersection.compute
  rw [show ({ vi with tileKeyEntries := (JMap.empty : ZoomLevelTileKeyMap) }
      : ViewIntersection).worldBox = vi.worldBox from rfl, hwb]
  rfl

/-- Any successful `compute` has `calculationFinal = true`, leaves every field
of the object except `tileKeyEntries` unchanged, and stores the returned maps
back into the object. -/
theorem compute_success {vi : ViewIntersection} {ts : TilingScheme}
    {ers : Option ElevationRangeSource} {zls : List ℕ} {dss : List DataSource} {fuel : ℕ}
    {res : IntersectionResult} {vi' : ViewIntersection}
    (h : vi.compute ts ers zls dss fuel = some (res, vi')) :
    res.calculationFinal = true ∧ vi' = { vi with tileKeyEntries := res.tileKeyEntries } := by
  cases hwb : vi.worldBox with
  | none =>
      rw [compute_def_none hwb] at h
      have h' := Option.some.inj h
      rw [Prod.mk.injEq] at h'
      obtain ⟨h1, h2⟩ := h'
      rw [← h1, ← h2, hwb]
      exact ⟨rfl, rfl⟩
  | some wb =>
      rw [compute_def_some hwb] at h
      cases hloop : computeLoop (mkComputeCtx vi ts zls dss wb) fuel
          (seedMaps (jsDedup zls) vi.rootTileKeys) vi.rootTileKeys.reverse with
      | none => rw [hloop] at h; cases h
      | some finalMaps =>
          rw [hloop] at h
          have h' := Option.some.inj h
          rw [Prod.mk.injEq] at h'
          obtain ⟨h1, h2⟩ := h'
          rw [← h1, ← h2, hwb]
          exact ⟨rfl, rfl⟩

/-- Replacing the stored `tileKeyEntries` does not change what `compute`
does: the first statement of `compute` clears them. -/
theorem compute_tileKeyEntries_irrelevant (vi : ViewIntersection) (m : ZoomLevelTileKeyMap)
    (ts : TilingScheme) (ers : Option ElevationRangeSource) (zls : List ℕ)
    (dss : List DataSource) (fuel : ℕ) :
    ViewIntersection.compute { vi with tileKeyEntries := m } ts ers zls dss fuel =
      vi.compute ts ers zls dss fuel := rfl


/-! ## Concrete fixtures for witnesses and counterexamples -/

def fullGlobeBox : GeoBox := ⟨⟨-90, -180, 0⟩, ⟨90, 180, 0⟩⟩

def rootEntryEx : TileKeyEntry := ⟨⟨0, 0, 0⟩, AreaVal.infinity, 0, 0, 0, 0⟩

def dsNever : DataSource := ⟨fun _ _ => false⟩

def dsAlways : DataSource := ⟨fun _ _ => true⟩

def mapViewNoGeo : MapView := ⟨none, 512, ProjectionType.Planar⟩

def viNoWorldBox : ViewIntersection := ⟨mapViewNoGeo, false, false, [], [], none⟩

/-- A view whose `mapView.geoBox` is undefined, after `updateFrustum`: its
world box is the degenerate zero-area box. -/
def viDegenerate : ViewIntersection := viNoWorldBox.updateFrustum

def viFull : ViewIntersection :=
  ⟨⟨some fullGlobeBox, 512, ProjectionType.Planar⟩, false, false,
   [rootEntryEx], [], some fullGlobeBox⟩

def ersQuad : ElevationRangeSource := ⟨quadScheme⟩

def resFullNoSub : IntersectionResult :=
  ⟨[(0, [((⟨0, 0, 0⟩, 0), rootEntryEx)]), (1, [((⟨0, 0, 0⟩, 0), rootEntryEx)])], true⟩

/-! ## Claim C10 -/

/-- C10: for every completed `compute` call the returned `calculationFinal`
flag is `true` — including when an elevation range source is supplied — since
the flag is initialized to `true` and never modified on any path. -/
theorem calculationFinal_always_true (vi : ViewIntersection) (ts : TilingScheme)
    (ers : Option ElevationRangeSource) (zls : List ℕ) (dss : List DataSource) (fuel : ℕ)
    (res : IntersectionResult) (vi' : ViewIntersection)
    (h : vi.compute ts ers zls dss fuel = some (res, vi')) :
    res.calculationFinal = true :=
  (compute_success h).1

/-- Witness for C10: a completed run with an elevation range source whose
tiling scheme is the one in use. -/
theorem calculationFinal_always_true_witness : resFullNoSub.calculationFinal = true :=
  calculationFinal_always_true viFull quadScheme (some ersQuad) [0, 1] [dsNever] 1
    resFullNoSub { viFull with tileKeyEntries := resFullNoSub.tileKeyEntries } rfl

/-! ## Claim C9 -/

/-- C9: calling `compute` twice with identical inputs and no intervening
`updateFrustum` yields the identical result (and leaves the object in the same
state): the computation depends only on the inputs and the stored frustum
state, which the first call does not disturb. -/
theorem compute_idempotent (vi : ViewIntersection) (ts : TilingScheme)
    (ers : Option ElevationRangeSource) (zls : List ℕ) (dss : List DataSource) (fuel : ℕ)
    (res : IntersectionResult) (vi' : ViewIntersection)
    (h : vi.compute ts ers zls dss fuel = some (res, vi')) :
    vi'.compute ts ers zls dss fuel = some (res, vi') := by
  have h2 := (compute_success h).2
  rw [h2, compute_tileKeyEntries_irrelevant, h, ← h2]

/-- Witness for C9: a concrete second run reproducing the first. -/
theorem compute_idempotent_witness :
    ViewIntersection.compute { viFull with tileKeyEntries := resFullNoSub.tileKeyEntries }
      quadScheme none [0, 1] [dsNever] 1 =
      some (resFullNoSub, { viFull with tileKeyEntries := resFullNoSub.tileKeyEntries }) :=
  compute_idempotent viFull quadScheme none [0, 1] [dsNever] 1 resFullNoSub
    { viFull with tileKeyEntries := resFullNoSub.tileKeyEntries } rfl

/-! ## Claim C2 -/

/-- C2 (counterexample): with a degenerate (zero-area) world box — exactly
what `updateFrustum` stores when `mapView.geoBox` is undefined — `compute`
does not return empty maps: the zoom-0 map still holds the seeded root
entry. -/
theorem degenerateWorldBox_counterexample :
    viDegenerate.worldBox = some (GeoBox.mk ⟨0, 0, 0⟩ ⟨0, 0, 0⟩) ∧
    viDegenerate.compute quadScheme none [0] [] 1 =
      some ({ tileKeyEntries := [(0, [((⟨0, 0, 0⟩, 0), rootEntryEx)])], calculationFinal := true },
            { viDegenerate with tileKeyEntries := [(0, [((⟨0, 0, 0⟩, 0), rootEntryEx)])] }) ∧
    ([(((⟨0, 0, 0⟩ : TileKey), (0 : ℤ)), rootEntryEx)] : TileKeyEntries) ≠ [] :=
  ⟨rfl, rfl, List.cons_ne_nil _ _⟩

/-- C2 (amended): when the WorldBox is undefined (no `updateFrustum` has run),
`compute` returns empty maps immediately — independently of the fuel — with
`calculationFinal = true`; a degenerate zero-area WorldBox does not trigger
this early return. -/
theorem undefinedWorldBox_empty (vi : ViewIntersection) (ts : TilingScheme)
    (ers : Option ElevationRangeSource) (zls : List ℕ) (dss : List DataSource) (fuel : ℕ)
    (hwb : vi.worldBox = none) :
    vi.compute ts ers zls dss fuel =
      some ({ tileKeyEntries := JMap.empty, calculationFinal := true },
            { vi with tileKeyEntries := JMap.empty }) :=
  compute_def_none hwb

/-- Witness for the amended C2. -/
theorem undefinedWorldBox_empty_witness :
    viNoWorldBox.compute quadScheme none [3] [dsAlways] 7 =
      some ({ tileKeyEntries := JMap.empty, calculationFinal := true },
            { viNoWorldBox with tileKeyEntries := JMap.empty }) :=
  undefinedWorldBox_empty viNoWorldBox quadScheme none [3] [dsAlways] 7 rfl

/-! ## Claim C6 -/

/-- C6: when mixed-LOD mode is enabled, a popped entry whose recorded area is
below the target tile area is not subdivided further — the step leaves the
maps untouched and pushes nothing — even if a data source requests
subdivision. -/
theorem mixedLod_pruning (ctx : ComputeCtx) (maps : ZoomLevelTileKeyMap) (e : TileKeyEntry)
    (hlod : ctx.enableMixedLod = true)
    (harea : AreaVal.ltQ e.area ctx.targetTileArea = true) :
    computeStep ctx maps e = (maps, []) := by
  simp [computeStep, hlod, harea]

def viMixed : ViewIntersection :=
  ⟨⟨some fullGlobeBox, 512, ProjectionType.Planar⟩, false, true,
   [rootEntryEx], [], some fullGlobeBox⟩

/-- The context `compute` builds for `viMixed`: viewport height 512, so the
target tile area is `(256 / 512)^2 = 1/4`. -/
def ctxMixed : ComputeCtx := mkComputeCtx viMixed quadScheme [5] [dsAlways] fullGlobeBox

def entSmallArea : TileKeyEntry := ⟨⟨1, 1, 3⟩, AreaVal.finite (1 / 10), 0, 0, 0, 1⟩

/-- Witness for C6: target `(256/512)^2 = 0.25`, candidate of area `0.1`, data
source always requesting subdivision — the step still stops. -/
theorem mixedLod_pruning_witness :
    ctxMixed.targetTileArea = 1 / 4 ∧
    anySubdivide ctxMixed.dataSources ctxMixed.zoomLevels entSmallArea.tileKey = true ∧
    computeStep ctxMixed [] entSmallArea = ([], []) :=
  ⟨by norm_num [ctxMixed, mkComputeCtx, viMixed], rfl,
   mixedLod_pruning ctxMixed [] entSmallArea rfl
     (by norm_num [AreaVal.ltQ, entSmallArea, ctxMixed, mkComputeCtx, viMixed])⟩


/-! ## Claim C4 -/

/-- C4: the intersection test is the epsilon-strict overlap test on the two
axes: a `true` answer implies genuine overlap on both axes; overlap with a
margin larger than the epsilon `MaxError` on both axes forces `true`; boxes
whose edges coincide to within the epsilon on either axis are reported as
non-intersecting; and the altitude fields play no role in the result. -/
theorem geoBoxesIntersect_epsilon_spec (a b : GeoBox) :
    (geoBoxesIntersect a b = true →
      a.west < b.east ∧ b.west < a.east ∧ a.south < b.north ∧ b.south < a.north) ∧
    (a.west < b.east - MaxError → b.west + MaxError < a.east →
      a.south < b.north - MaxError → b.south + MaxError < a.north →
      geoBoxesIntersect a b = true) ∧
    (|a.east - b.west| < MaxError ∨ |a.west - b.east| < MaxError ∨
      |a.south - b.north| < MaxError ∨ |a.north - b.south| < MaxError →
      geoBoxesIntersect a b = false) ∧
    (∀ p q r s, geoBoxesIntersect (a.withAltitudes p q) (b.withAltitudes r s) =
      geoBoxesIntersect a b) := by
  have hε : (0 : ℚ) < MaxError := by norm_num [MaxError]
  refine ⟨?_, ?_, ?_, ?_⟩
  · intro h
    simp only [geoBoxesIntersect, Bool.and_eq_true, decide_eq_true_eq, ge_iff_le] at h
    obtain ⟨⟨⟨h1, h2⟩, h3⟩, h4⟩ := h
    exact ⟨by linarith, by linarith, by linarith, by linarith⟩
  · intro h1 h2 h3 h4
    simp only [geoBoxesIntersect, Bool.and_eq_true, decide_eq_true_eq, ge_iff_le]
    exact ⟨⟨⟨h1, by linarith⟩, by linarith⟩, by linarith⟩
  · intro h
    rw [← Bool.not_eq_true]
    intro hT
    simp only [geoBoxesIntersect, Bool.and_eq_true, decide_eq_true_eq, ge_iff_le] at hT
    obtain ⟨⟨⟨h1, h2⟩, h3⟩, h4⟩ := hT
    rcases h with h | h | h | h <;> rw [abs_lt] at h <;> obtain ⟨hl, hr⟩ := h <;> linarith
  · intro p q r s
    rfl

def boxBase : GeoBox := ⟨⟨0, 0, 0⟩, ⟨10, 10, 0⟩⟩

def boxOverlap : GeoBox := ⟨⟨5, 5, 0⟩, ⟨15, 15, 0⟩⟩

def boxTouch : GeoBox := ⟨⟨0, 10, 0⟩, ⟨10, 20, 0⟩⟩

/-- Witness for C4: genuinely overlapping boxes intersect; boxes sharing the
edge at longitude 10 do not. -/
theorem geoBoxesIntersect_epsilon_spec_witness :
    geoBoxesIntersect boxBase boxOverlap = true ∧
    geoBoxesIntersect boxBase boxTouch = false := by
  constructor
  · refine (geoBoxesIntersect_epsilon_spec boxBase boxOverlap).2.1 ?_ ?_ ?_ ?_ <;>
      norm_num [boxBase, boxOverlap, GeoBox.west, GeoBox.east, GeoBox.south, GeoBox.north,
        MaxError]
  · refine (geoBoxesIntersect_epsilon_spec boxBase boxTouch).2.2.1 (Or.inl ?_)
    norm_num [boxBase, boxTouch, GeoBox.west, GeoBox.east, MaxError]

/-! ## Claim C5 -/

def cexBoxA : GeoBox := ⟨⟨10 - 1 / 10000000, 0, 0⟩, ⟨20, 10, 0⟩⟩

def cexBoxB : GeoBox := ⟨⟨0, 0, 0⟩, ⟨10, 10, 0⟩⟩

/-- C5 (counterexample): the intersection test is not symmetric under
transposing the longitude extents with the latitude extents: these two boxes
intersect, but their transposes do not (the latitude comparison at the south
edge is non-strict while the corresponding longitude comparison is strict, and
here `cexBoxA.south = cexBoxB.north - MaxError` exactly). -/
theorem transpose_counterexample :
    geoBoxesIntersect cexBoxA cexBoxB = true ∧
    geoBoxesIntersect (transposeGeoBox cexBoxA) (transposeGeoBox cexBoxB) = false := by
  constructor <;>
    norm_num [geoBoxesIntersect, transposeGeoBox, cexBoxA, cexBoxB, GeoBox.west, GeoBox.east,
      GeoBox.south, GeoBox.north, MaxError]

/-- C5 (amended): transposing the longitude extents with the latitude extents
of both boxes preserves the intersection result whenever neither exact
boundary case `a.west = b.east - MaxError` nor `a.south = b.north - MaxError`
holds (at those boundaries the strict longitude test and the non-strict
latitude test disagree). -/
theorem transpose_geoBoxesIntersect (a b : GeoBox)
    (h1 : a.west ≠ b.east - MaxError) (h2 : a.south ≠ b.north - MaxError) :
    geoBoxesIntersect (transposeGeoBox a) (transposeGeoBox b) = geoBoxesIntersect a b := by
  simp only [GeoBox.west, GeoBox.east, GeoBox.south, GeoBox.north] at h1 h2
  rw [Bool.eq_iff_iff]
  simp only [geoBoxesIntersect, transposeGeoBox, GeoBox.west, GeoBox.east, GeoBox.south,
    GeoBox.north, Bool.and_eq_true, decide_eq_true_eq, ge_iff_le]
  constructor
  · rintro ⟨⟨⟨t1, t2⟩, t3⟩, t4⟩
    exact ⟨⟨⟨lt_of_le_of_ne t3 h1, t4⟩, le_of_lt t1⟩, t2⟩
  · rintro ⟨⟨⟨r1, r2⟩, r3⟩, r4⟩
    exact ⟨⟨⟨lt_of_le_of_ne r3 h2, r4⟩, le_of_lt r1⟩, r2⟩

/-- Witness for the amended C5: away from the exact boundary, transposing the
axes of both boxes gives the same answer. -/
theorem transpose_geoBoxesIntersect_witness :
    geoBoxesIntersect (transposeGeoBox boxBase) (transposeGeoBox boxOverlap) =
      geoBoxesIntersect boxBase boxOverlap :=
  transpose_geoBoxesIntersect boxBase boxOverlap
    (by norm_num [boxBase, boxOverlap, GeoBox.west, GeoBox.east, MaxError])
    (by norm_num [boxBase, boxOverlap, GeoBox.south, GeoBox.north, MaxError])


/-! ## Sub-tile descendance -/

/-- Key `c` is a direct sub-tile of `p` according to the scheme. -/
def IsSubTile (ts : TilingScheme) (p c : TileKey) : Prop :=
  c ∈ ts.getSubTileKeys p

/-- Key `d` is a strict descendant of `a` in the scheme's tile tree: reachable by
one or more sub-tile steps. -/
def IsDescendant (ts : TilingScheme) (a d : TileKey) : Prop :=
  Relation.TransGen (IsSubTile ts) a d

/-- The collaborator contract of `getSubTileKeys` (spec section 6:
deterministic, fixed branching factor, no duplicates, children one level below
the parent in the tile tree, each child determined by a unique parent). -/
structure SchemeContract (ts : TilingScheme) : Prop where
  level_succ : ∀ p c, c ∈ ts.getSubTileKeys p → c.level = p.level + 1
  sub_nodup : ∀ p, (ts.getSubTileKeys p).Nodup
  parent_unique : ∀ p q c, c ∈ ts.getSubTileKeys p → c ∈ ts.getSubTileKeys q → p = q

theorem IsDescendant.level_lt {ts : TilingScheme} (hc : SchemeContract ts) {a d : TileKey}
    (h : IsDescendant ts a d) : a.level < d.level := by
  induction h with
  | single hs => rw [hc.level_succ _ _ hs]; omega
  | tail _ hs ih => rw [hc.level_succ _ _ hs]; omega

theorem IsDescendant.irrefl {ts : TilingScheme} (hc : SchemeContract ts) {a : TileKey}
    (h : IsDescendant ts a a) : False := by
  have := h.level_lt hc
  omega

/-- Two sub-tiles of the same parent sit at the same level and therefore
cannot be descendants of one another. -/
theorem sibling_not_descendant {ts : TilingScheme} (hc : SchemeContract ts) {w k k' : TileKey}
    (hk : k ∈ ts.getSubTileKeys w) (hk' : k' ∈ ts.getSubTileKeys w)
    (h : IsDescendant ts k k') : False := by
  have h1 := hc.level_succ _ _ hk
  have h2 := hc.level_succ _ _ hk'
  have := h.level_lt hc
  omega

/-- A descendance chain ending in a sub-tile of `w` passes through `w`. -/
theorem descendant_into_subtile {ts : TilingScheme} (hc : SchemeContract ts) {w c a : TileKey}
    (hcw : c ∈ ts.getSubTileKeys w) (h : IsDescendant ts a c) :
    a = w ∨ IsDescendant ts a w := by
  cases h with
  | single hs => exact Or.inl (hc.parent_unique _ _ _ hs hcw)
  | tail hab hs =>
      have hbw := hc.parent_unique _ _ _ hs hcw
      exact Or.inr (hbw ▸ hab)

/-- A sub-tile of `w` is a descendant of `w`. -/
theorem subtile_descendant {ts : TilingScheme} {w c : TileKey}
    (hcw : c ∈ ts.getSubTileKeys w) : IsDescendant ts w c :=
  Relation.TransGen.single hcw

/-- Descendance extends through a sub-tile step at the top. -/
theorem descendant_of_subtile {ts : TilingScheme} {w c d : TileKey}
    (hcw : c ∈ ts.getSubTileKeys w) (h : IsDescendant ts c d) : IsDescendant ts w d :=
  Relation.TransGen.head hcw h

/-- The concrete quadtree scheme satisfies the collaborator contract. -/
theorem quadScheme_contract : SchemeContract quadScheme := by
  refine ⟨?_, ?_, ?_⟩
  · intro p c hcmem
    simp only [quadScheme, quadSubTileKeys, List.mem_cons, List.not_mem_nil, or_false] at hcmem
    rcases hcmem with rfl | rfl | rfl | rfl <;> rfl
  · intro p
    simp only [quadScheme, quadSubTileKeys]
    simp [List.nodup_cons, TileKey.mk.injEq]
  · intro p q c hp hq
    obtain ⟨pr, pc, pl⟩ := p
    obtain ⟨qr, qc, ql⟩ := q
    simp only [quadScheme, quadSubTileKeys, List.mem_cons, List.not_mem_nil, or_false] at hp hq
    rcases hp with rfl | rfl | rfl | rfl <;>
      (rcases hq with hq | hq | hq | hq <;> (simp only [TileKey.mk.injEq] at hq ⊢; omega))


/-! ## Shape of one traversal step -/

/-- The step's decision to subdivide: some data source requests it and the
mixed-LOD area prune does not fire. -/
def didSubdivide (ctx : ComputeCtx) (e : TileKeyEntry) : Bool :=
  anySubdivide ctx.dataSources ctx.zoomLevels e.tileKey &&
  !(ctx.enableMixedLod && AreaVal.ltQ e.area ctx.targetTileArea)

theorem computeStep_stop {ctx : ComputeCtx} {maps : ZoomLevelTileKeyMap} {e : TileKeyEntry}
    (h : didSubdivide ctx e = false) : computeStep ctx maps e = (maps, []) := by
  unfold didSubdivide at h
  cases hsub : anySubdivide ctx.dataSources ctx.zoomLevels e.tileKey with
  | false => simp [computeStep, hsub]
  | true =>
      rw [hsub, Bool.true_and, Bool.not_eq_false'] at h
      simp [computeStep, hsub, h]

theorem computeStep_subdivide_eq {ctx : ComputeCtx} {maps : ZoomLevelTileKeyMap}
    {e : TileKeyEntry} (h : didSubdivide ctx e = true) :
    computeStep ctx maps e =
      (ctx.tilingScheme.getSubTileKeys e.tileKey).foldl (stepChild ctx e)
        (deleteParent ctx e maps, []) := by
  unfold didSubdivide at h
  rw [Bool.and_eq_true, Bool.not_eq_true'] at h
  unfold computeStep
  rw [if_neg (by simp [h.1]), if_neg (by simp [h.2])]

theorem mkSubTileEntry_tileKey (ctx : ComputeCtx) (e : TileKeyEntry) (k : TileKey) :
    (mkSubTileEntry ctx e k).tileKey = k := rfl

theorem mkSubTileEntry_offset (ctx : ComputeCtx) (e : TileKeyEntry) (k : TileKey) :
    (mkSubTileEntry ctx e k).offset = e.offset := rfl

theorem stepChild_eq_pos {ctx : ComputeCtx} {e : TileKeyEntry}
    {acc : ZoomLevelTileKeyMap × List TileKeyEntry} {k : TileKey}
    (h : geoBoxesIntersect ctx.worldBox (getGeoBox ctx.tilingScheme k e.offset) = true) :
    stepChild ctx e acc k =
      (ctx.uniqueZoomLevels.foldl
        (fun m zl =>
          if (mkSubTileEntry ctx e k).tileKey.level > zl then m
          else JMap.update m zl fun entries =>
            JMap.set entries (getKeyForTileKeyAndOffset k e.offset) (mkSubTileEntry ctx e k))
        acc.1,
       acc.2 ++ [mkSubTileEntry ctx e k]) := by
  unfold stepChild
  rw [if_pos h]

theorem stepChild_eq_neg {ctx : ComputeCtx} {e : TileKeyEntry}
    {acc : ZoomLevelTileKeyMap × List TileKeyEntry} {k : TileKey}
    (h : geoBoxesIntersect ctx.worldBox (getGeoBox ctx.tilingScheme k e.offset) = false) :
    stepChild ctx e acc k = acc := by
  unfold stepChild
  rw [if_neg (by simp [h])]

/-- The pushed list of the child loop: the surviving children, in order, as
stub entries appended to the accumulator. -/
theorem childFold_pushed_eq {ctx : ComputeCtx} {e : TileKeyEntry} :
    ∀ (keys : List TileKey) (acc : ZoomLevelTileKeyMap × List TileKeyEntry),
      (keys.foldl (stepChild ctx e) acc).2 =
        acc.2 ++ (keys.filter fun k =>
          geoBoxesIntersect ctx.worldBox (getGeoBox ctx.tilingScheme k e.offset)).map
            (mkSubTileEntry ctx e) := by
  intro keys
  induction keys with
  | nil => intro acc; simp
  | cons k keys ih =>
      intro acc
      rw [List.foldl_cons]
      cases hint : geoBoxesIntersect ctx.worldBox (getGeoBox ctx.tilingScheme k e.offset) with
      | false =>
          rw [stepChild_eq_neg hint, ih]
          simp [List.filter_cons, hint]
      | true =>
          rw [stepChild_eq_pos hint, ih]
          simp [List.filter_cons, hint]


/-- Membership shape of the per-child insertion fold over the zoom levels. -/
theorem insertChild_aux {ent : TileKeyEntry} {ky : TileKey × ℤ} :
    ∀ (l : List ℕ) (maps : ZoomLevelTileKeyMap) {zl : ℕ} {M' : TileKeyEntries},
      (zl, M') ∈ l.foldl
        (fun m z =>
          if ent.tileKey.level > z then m
          else JMap.update m z fun entries => JMap.set entries ky ent)
        maps →
      ∃ M, (zl, M) ∈ maps ∧ ∀ p ∈ M',
        p ∈ M ∨ (p = (ky, ent) ∧ ent.tileKey.level ≤ zl ∧ zl ∈ l) := by
  intro l
  induction l with
  | nil =>
      intro maps zl M' h
      exact ⟨M', h, fun p hp => Or.inl hp⟩
  | cons z l ih =>
      intro maps zl M' h
      rw [List.foldl_cons] at h
      obtain ⟨M1, hM1, hsub⟩ := ih _ h
      by_cases hlz : ent.tileKey.level > z
      · rw [if_pos hlz] at hM1
        refine ⟨M1, hM1, fun p hp => ?_⟩
        rcases hsub p hp with h1 | ⟨h1, h2, h3⟩
        · exact Or.inl h1
        · exact Or.inr ⟨h1, h2, List.mem_cons_of_mem _ h3⟩
      · rw [if_neg hlz] at hM1
        rcases JMap.mem_update_iff.mp hM1 with ⟨_, hm⟩ | ⟨rfl, M0, hM0, rfl⟩
        · refine ⟨M1, hm, fun p hp => ?_⟩
          rcases hsub p hp with h1 | ⟨h1, h2, h3⟩
          · exact Or.inl h1
          · exact Or.inr ⟨h1, h2, List.mem_cons_of_mem _ h3⟩
        · refine ⟨M0, hM0, fun p hp => ?_⟩
          rcases hsub p hp with h1 | ⟨h1, h2, h3⟩
          · rcases JMap.mem_set h1 with h1' | h1'
            · exact Or.inr ⟨h1', by omega, List.mem_cons_self ..⟩
            · exact Or.inl h1'
          · exact Or.inr ⟨h1, h2, List.mem_cons_of_mem _ h3⟩

/-- Membership shape of `deleteParent`: surviving entries come from the old
map, and at a zoom level where the deletion applies their key differs from the
popped entry's key. -/
theorem deleteParent_mem {e : TileKeyEntry} :
    ∀ (l : List ℕ) (maps : ZoomLevelTileKeyMap) {zl : ℕ} {M' : TileKeyEntries},
      (zl, M') ∈ l.foldl
        (fun m z =>
          if e.tileKey.level ≥ z then m
          else JMap.update m z fun entries =>
            JMap.delete entries (getKeyForTileKeyAndOffset e.tileKey e.offset))
        maps →
      ∃ M, (zl, M) ∈ maps ∧ ∀ p ∈ M', p ∈ M ∧
        (zl ∈ l → e.tileKey.level < zl →
          p.1 ≠ getKeyForTileKeyAndOffset e.tileKey e.offset) := by
  intro l
  induction l with
  | nil =>
      intro maps zl M' h
      exact ⟨M', h, fun p hp => ⟨hp, fun hz _ => absurd hz (List.not_mem_nil zl)⟩⟩
  | cons z l ih =>
      intro maps zl M' h
      rw [List.foldl_cons] at h
      obtain ⟨M1, hM1, hsub⟩ := ih _ h
      by_cases hlz : e.tileKey.level ≥ z
      · rw [if_pos hlz] at hM1
        refine ⟨M1, hM1, fun p hp => ⟨(hsub p hp).1, fun hzl hlt => ?_⟩⟩
        rcases List.mem_cons.mp hzl with rfl | hzl'
        · omega
        · exact (hsub p hp).2 hzl' hlt
      · rw [if_neg hlz] at hM1
        rcases JMap.mem_update_iff.mp hM1 with ⟨hne, hm⟩ | ⟨rfl, M0, hM0, rfl⟩
        · refine ⟨M1, hm, fun p hp => ⟨(hsub p hp).1, fun hzl hlt => ?_⟩⟩
          rcases List.mem_cons.mp hzl with rfl | hzl'
          · exact absurd rfl hne
          · exact (hsub p hp).2 hzl' hlt
        · refine ⟨M0, hM0, fun p hp => ?_⟩
          have h1 := (hsub p hp).1
          have h2 := JMap.mem_delete h1
          exact ⟨h2.1, fun _ _ => h2.2⟩

/-- Membership shape of the whole child loop on the maps: every entry of the
result either survives from the accumulator's maps or is a freshly inserted
surviving child at an admissible zoom level. -/
theorem childFold_maps {ctx : ComputeCtx} {e : TileKeyEntry} :
    ∀ (keys : List TileKey) (acc : ZoomLevelTileKeyMap × List TileKeyEntry)
      {zl : ℕ} {M' : TileKeyEntries},
      (zl, M') ∈ (keys.foldl (stepChild ctx e) acc).1 →
      ∃ M, (zl, M) ∈ acc.1 ∧ ∀ p ∈ M', p ∈ M ∨
        ∃ k ∈ keys, p = (getKeyForTileKeyAndOffset k e.offset, mkSubTileEntry ctx e k) ∧
          k.level ≤ zl ∧ zl ∈ ctx.uniqueZoomLevels ∧
          geoBoxesIntersect ctx.worldBox (getGeoBox ctx.tilingScheme k e.offset) = true := by
  intro keys
  induction keys with
  | nil =>
      intro acc zl M' h
      exact ⟨M', h, fun p hp => Or.inl hp⟩
  | cons k keys ih =>
      intro acc zl M' h
      rw [List.foldl_cons] at h
      obtain ⟨M1, hM1, hsub⟩ := ih _ h
      cases hint : geoBoxesIntersect ctx.worldBox (getGeoBox ctx.tilingScheme k e.offset) with
      | false =>
          rw [stepChild_eq_neg hint] at hM1
          refine ⟨M1, hM1, fun p hp => ?_⟩
          rcases hsub p hp with h1 | ⟨k', hk', hrest⟩
          · exact Or.inl h1
          · exact Or.inr ⟨k', List.mem_cons_of_mem _ hk', hrest⟩
      | true =>
          rw [stepChild_eq_pos hint] at hM1
          obtain ⟨M0, hM0, hins⟩ := insertChild_aux _ _ hM1
          refine ⟨M0, hM0, fun p hp => ?_⟩
          rcases hsub p hp with h1 | ⟨k', hk', hrest⟩
          · rcases hins p h1 with h0 | ⟨hpk, hlev, hzl⟩
            · exact Or.inl h0
            · exact Or.inr ⟨k, List.mem_cons_self .., hpk, hlev, hzl, hint⟩
          · exact Or.inr ⟨k', List.mem_cons_of_mem _ hk', hrest⟩

/-! ## Generic loop reasoning -/

/-- A property preserved by every fold step holds of the fold. -/
theorem foldl_preserve {α β : Type} (f : β → α → β) (P : β → Prop) :
    ∀ (l : List α) (b : β), P b → (∀ b' a, a ∈ l → P b' → P (f b' a)) → P (l.foldl f b) := by
  intro l
  induction l with
  | nil => intro b hb _; exact hb
  | cons a l ih =>
      intro b hb hf
      rw [List.foldl_cons]
      exact ih _ (hf b a (List.mem_cons_self ..) hb)
        fun b' a' ha' => hf b' a' (List.mem_cons_of_mem _ ha')

/-- An invariant of the loop step is an invariant of the fueled loop. -/
theorem computeLoop_invariant (ctx : ComputeCtx)
    (Inv : ZoomLevelTileKeyMap → List TileKeyEntry → Prop)
    (hstep : ∀ maps e rest, Inv maps (e :: rest) →
      Inv (computeStep ctx maps e).1 ((computeStep ctx maps e).2.reverse ++ rest)) :
    ∀ (fuel : ℕ) (maps : ZoomLevelTileKeyMap) (work : List TileKeyEntry)
      (m' : ZoomLevelTileKeyMap), Inv maps work →
      computeLoop ctx fuel maps work = some m' → Inv m' [] := by
  intro fuel
  induction fuel with
  | zero =>
      intro maps work m' hinv hrun
      cases work with
      | nil => exact (Option.some.inj hrun) ▸ hinv
      | cons e rest => exact Option.noConfusion hrun
  | succ f ih =>
      intro maps work m' hinv hrun
      cases work with
      | nil => exact (Option.some.inj hrun) ▸ hinv
      | cons e rest => exact ih _ _ _ (hstep maps e rest hinv) hrun


/-! ## The partition invariant -/

/-- Relation between two work-list entries: equal offsets force distinct,
ancestry-free tile keys. -/
def WorkRel (ts : TilingScheme) (u v : TileKeyEntry) : Prop :=
  u.offset = v.offset →
    u.tileKey ≠ v.tileKey ∧ ¬ IsDescendant ts u.tileKey v.tileKey ∧
      ¬ IsDescendant ts v.tileKey u.tileKey

theorem WorkRel.symm {ts : TilingScheme} {u v : TileKeyEntry} (h : WorkRel ts u v) :
    WorkRel ts v u := by
  intro hoff
  obtain ⟨h1, h2, h3⟩ := h hoff.symm
  exact ⟨h1.symm, h3, h2⟩

/-- The loop invariant of the traversal: the maps' keys are drawn from the
deduplicated zoom levels; map keys agree with their entries; no two same-offset
entries of one map are ancestor-related; no map entry at a zoom level a
work-list entry could still subdivide into is related to that entry by
ancestry; and the work list itself carries no same-offset ancestry or
duplicates. -/
structure TraversalInv (ctx : ComputeCtx) (maps : ZoomLevelTileKeyMap)
    (work : List TileKeyEntry) : Prop where
  zoomKeys : ∀ zl M, (zl, M) ∈ maps → zl ∈ ctx.uniqueZoomLevels
  keyAgree : ∀ zl M, (zl, M) ∈ maps → ∀ p ∈ M, p.1 = (p.2.tileKey, p.2.offset)
  partitionHolds : ∀ zl M, (zl, M) ∈ maps → ∀ p q, p ∈ M → q ∈ M →
    p.2.offset = q.2.offset → ¬ IsDescendant ctx.tilingScheme p.2.tileKey q.2.tileKey
  mapNotDescOfWork : ∀ zl M, (zl, M) ∈ maps → ∀ p ∈ M, ∀ w ∈ work,
    w.tileKey.level < zl → w.offset = p.2.offset →
      ¬ IsDescendant ctx.tilingScheme w.tileKey p.2.tileKey
  mapNotAncOfWork : ∀ zl M, (zl, M) ∈ maps → ∀ p ∈ M, ∀ w ∈ work,
    w.tileKey.level < zl → p.2.offset = w.offset →
      ¬ IsDescendant ctx.tilingScheme p.2.tileKey w.tileKey
  workPairwise : work.Pairwise (WorkRel ctx.tilingScheme)

theorem traversalInv_step {ctx : ComputeCtx} (hc : SchemeContract ctx.tilingScheme)
    {maps : ZoomLevelTileKeyMap} {e : TileKeyEntry} {rest : List TileKeyEntry}
    (hinv : TraversalInv ctx maps (e :: rest)) :
    TraversalInv ctx (computeStep ctx maps e).1
      ((computeStep ctx maps e).2.reverse ++ rest) := by
  cases hdid : didSubdivide ctx e with
  | false =>
      rw [computeStep_stop hdid]
      show TraversalInv ctx maps rest
      refine ⟨hinv.zoomKeys, hinv.keyAgree, hinv.partitionHolds, ?_, ?_, ?_⟩
      · intro zl M hM p hp w hw
        exact hinv.mapNotDescOfWork zl M hM p hp w (List.mem_cons_of_mem _ hw)
      · intro zl M hM p hp w hw
        exact hinv.mapNotAncOfWork zl M hM p hp w (List.mem_cons_of_mem _ hw)
      · exact (List.pairwise_cons.mp hinv.workPairwise).2
  | true =>
      rw [computeStep_subdivide_eq hdid]
      have hErest : ∀ w ∈ rest, WorkRel ctx.tilingScheme e w :=
        (List.pairwise_cons.mp hinv.workPairwise).1
      have hPWrest : rest.Pairwise (WorkRel ctx.tilingScheme) :=
        (List.pairwise_cons.mp hinv.workPairwise).2
      -- characterize the pushed children
      have hpush :
          ((ctx.tilingScheme.getSubTileKeys e.tileKey).foldl (stepChild ctx e)
            (deleteParent ctx e maps, [])).2 =
          ((ctx.tilingScheme.getSubTileKeys e.tileKey).filter fun k =>
            geoBoxesIntersect ctx.worldBox (getGeoBox ctx.tilingScheme k e.offset)).map
              (mkSubTileEntry ctx e) := by
        rw [childFold_pushed_eq]
        simp
      have hchild : ∀ c ∈ ((ctx.tilingScheme.getSubTileKeys e.tileKey).foldl
            (stepChild ctx e) (deleteParent ctx e maps, [])).2,
          ∃ k, k ∈ ctx.tilingScheme.getSubTileKeys e.tileKey ∧
            c = mkSubTileEntry ctx e k := by
        intro c hcmem
        rw [hpush] at hcmem
        rcases List.mem_map.mp hcmem with ⟨k, hk, hck⟩
        exact ⟨k, List.mem_of_mem_filter hk, hck.symm⟩
      -- characterize the maps
      have hmaps : ∀ {zl M'},
          (zl, M') ∈ ((ctx.tilingScheme.getSubTileKeys e.tileKey).foldl
            (stepChild ctx e) (deleteParent ctx e maps, [])).1 →
          ∃ M, (zl, M) ∈ maps ∧ ∀ p ∈ M',
            (p ∈ M ∧ (zl ∈ ctx.uniqueZoomLevels → e.tileKey.level < zl →
              p.1 ≠ getKeyForTileKeyAndOffset e.tileKey e.offset)) ∨
            ∃ k ∈ ctx.tilingScheme.getSubTileKeys e.tileKey,
              p = (getKeyForTileKeyAndOffset k e.offset, mkSubTileEntry ctx e k) ∧
              k.level ≤ zl ∧ zl ∈ ctx.uniqueZoomLevels ∧
              geoBoxesIntersect ctx.worldBox (getGeoBox ctx.tilingScheme k e.offset) = true := by
        intro zl M' hM'
        obtain ⟨M1, hM1, hsub1⟩ := childFold_maps _ _ hM'
        obtain ⟨M, hM, hsub2⟩ := deleteParent_mem ctx.uniqueZoomLevels maps hM1
        refine ⟨M, hM, fun p hp => ?_⟩
        rcases hsub1 p hp with h1 | h1
        · exact Or.inl ⟨(hsub2 p h1).1, fun ha hb => (hsub2 p h1).2 ha hb⟩
        · exact Or.inr h1
      -- useful facts about child levels
      have hlev : ∀ k ∈ ctx.tilingScheme.getSubTileKeys e.tileKey,
          k.level = e.tileKey.level + 1 := fun k hk => hc.level_succ _ _ hk
      constructor
      -- zoomKeys
      · intro zl M' hM'
        obtain ⟨M, hM, _⟩ := hmaps hM'
        exact hinv.zoomKeys zl M hM
      -- keyAgree
      · intro zl M' hM' p hp
        obtain ⟨M, hM, hsub⟩ := hmaps hM'
        rcases hsub p hp with ⟨h1, _⟩ | ⟨k, _, rfl, _⟩
        · exact hinv.keyAgree zl M hM p h1
        · rfl
      -- partitionHolds
      · intro zl M' hM' p q hp hq hoff
        obtain ⟨M, hM, hsub⟩ := hmaps hM'
        rcases hsub p hp with ⟨hpM, hpdel⟩ | ⟨k, hk, rfl, hklev, hkzl, _⟩ <;>
          rcases hsub q hq with ⟨hqM, hqdel⟩ | ⟨k', hk', hq', hklev', hkzl', _⟩
        · exact hinv.partitionHolds zl M hM p q hpM hqM hoff
        · -- p old, q = child k'
          subst hq'
          intro hdesc
          have hoffe : p.2.offset = e.offset := by
            simpa [mkSubTileEntry_offset] using hoff
          have hlt : e.tileKey.level < zl := by
            have := hlev k' hk'
            omega
          rcases descendant_into_subtile hc hk' hdesc with heq | hdesc'
          · -- p's key is the parent key, but that key was deleted
            have hkey := hinv.keyAgree zl M hM p hpM
            exact hpdel hkzl' hlt (by
              rw [hkey, heq, hoffe]
              rfl)
          · exact hinv.mapNotAncOfWork zl M hM p hpM e (List.mem_cons_self ..) hlt hoffe hdesc'
        · -- p = child k, q old
          intro hdesc
          have hoffe : e.offset = q.2.offset := by
            simpa [mkSubTileEntry_offset] using hoff
          have hlt : e.tileKey.level < zl := by
            have := hlev k hk
            omega
          have hdesc' : IsDescendant ctx.tilingScheme e.tileKey q.2.tileKey :=
            descendant_of_subtile hk (by simpa [mkSubTileEntry_tileKey] using hdesc)
          exact hinv.mapNotDescOfWork zl M hM q hqM e (List.mem_cons_self ..) hlt hoffe hdesc'
        · -- both children
          subst hq'
          intro hdesc
          exact sibling_not_descendant hc hk hk'
            (by simpa [mkSubTileEntry_tileKey] using hdesc)
      -- mapNotDescOfWork
      · intro zl M' hM' p hp w hw hwlev hwoff
        obtain ⟨M, hM, hsub⟩ := hmaps hM'
        rcases List.mem_append.mp hw with hwpush | hwrest
        · -- w is a pushed child
          obtain ⟨kw, hkw, rfl⟩ := hchild w (List.mem_reverse.mp hwpush)
          rcases hsub p hp with ⟨hpM, _⟩ | ⟨k, hk, rfl, _, _, _⟩
          · -- p old: a descendance from the child extends to one from e
            intro hdesc
            have hlt : e.tileKey.level < zl := by
              have := hlev kw hkw
              have : (mkSubTileEntry ctx e kw).tileKey.level = kw.level := rfl
              omega
            have hoffe : e.offset = p.2.offset := by
              simpa [mkSubTileEntry_offset] using hwoff
            exact hinv.mapNotDescOfWork zl M hM p hpM e (List.mem_cons_self ..) hlt hoffe
              (descendant_of_subtile hkw (by simpa [mkSubTileEntry_tileKey] using hdesc))
          · -- p a child as well: siblings
            intro hdesc
            exact sibling_not_descendant hc hkw hk
              (by simpa [mkSubTileEntry_tileKey] using hdesc)
        · rcases hsub p hp with ⟨hpM, _⟩ | ⟨k, hk, rfl, _, _, _⟩
          · exact hinv.mapNotDescOfWork zl M hM p hpM w (List.mem_cons_of_mem _ hwrest)
              hwlev hwoff
          · -- p a child of e, w an old work entry: w cannot reach below e
            intro hdesc
            have hdesc2 : IsDescendant ctx.tilingScheme w.tileKey k := by
              simpa [mkSubTileEntry_tileKey] using hdesc
            have hoffe : w.offset = e.offset := by
              simpa [mkSubTileEntry_offset] using hwoff
            have hrel := (hErest w hwrest).symm
            obtain ⟨hne, hnd1, hnd2⟩ := hrel (by rw [hoffe])
            rcases descendant_into_subtile hc hk hdesc2 with heq | hdesc3
            · exact hne heq
            · exact hnd1 hdesc3
      -- mapNotAncOfWork
      · intro zl M' hM' p hp w hw hwlev hwoff
        obtain ⟨M, hM, hsub⟩ := hmaps hM'
        rcases List.mem_append.mp hw with hwpush | hwrest
        · obtain ⟨kw, hkw, rfl⟩ := hchild w (List.mem_reverse.mp hwpush)
          rcases hsub p hp with ⟨hpM, hpdel⟩ | ⟨k, hk, rfl, _, _, _⟩
          · -- p old, w a pushed child
            intro hdesc
            have hklev : kw.level = e.tileKey.level + 1 := hlev kw hkw
            have hwlev' : (mkSubTileEntry ctx e kw).tileKey.level = kw.level := rfl
            have hlt : e.tileKey.level < zl := by omega
            have hoffe : p.2.offset = e.offset := by
              simpa [mkSubTileEntry_offset] using hwoff
            have hdesc2 : IsDescendant ctx.tilingScheme p.2.tileKey kw := by
              simpa [mkSubTileEntry_tileKey] using hdesc
            rcases descendant_into_subtile hc hkw hdesc2 with heq | hdesc3
            · have hkey := hinv.keyAgree zl M hM p hpM
              have hzl := hinv.zoomKeys zl M hM
              exact hpdel hzl hlt (by
                rw [hkey, heq, hoffe]
                rfl)
            · exact hinv.mapNotAncOfWork zl M hM p hpM e (List.mem_cons_self ..) hlt
                hoffe hdesc3
          · -- both children
            intro hdesc
            exact sibling_not_descendant hc hk hkw
              (by simpa [mkSubTileEntry_tileKey] using hdesc)
        · rcases hsub p hp with ⟨hpM, _⟩ | ⟨k, hk, rfl, _, _, _⟩
          · exact hinv.mapNotAncOfWork zl M hM p hpM w (List.mem_cons_of_mem _ hwrest)
              hwlev hwoff
          · -- p a child of e, w old: a chain from the child extends from e
            intro hdesc
            have hdesc2 : IsDescendant ctx.tilingScheme e.tileKey w.tileKey :=
              descendant_of_subtile hk (by simpa [mkSubTileEntry_tileKey] using hdesc)
            have hoffe : e.offset = w.offset := by
              simpa [mkSubTileEntry_offset] using hwoff
            obtain ⟨_, hnd1, _⟩ := hErest w hwrest hoffe
            exact hnd1 hdesc2
      -- workPairwise
      · rw [List.pairwise_append]
        refine ⟨?_, hPWrest, ?_⟩
        · -- pairwise within the reversed pushed list: distinct siblings
          rw [List.pairwise_reverse, hpush, List.pairwise_map]
          have hpw : (ctx.tilingScheme.getSubTileKeys e.tileKey).Pairwise (· ≠ ·) :=
            hc.sub_nodup e.tileKey
          refine List.Pairwise.filter _ (List.Pairwise.imp_of_mem ?_ hpw)
          intro a b ha hb hne hoff
          refine ⟨?_, ?_, ?_⟩
          · intro heq
            exact hne ((show b = a from heq).symm)
          · intro hdesc
            exact sibling_not_descendant hc hb ha
              (by simpa [mkSubTileEntry_tileKey] using hdesc)
          · intro hdesc
            exact sibling_not_descendant hc ha hb
              (by simpa [mkSubTileEntry_tileKey] using hdesc)
        · -- cross: pushed children versus the remaining work list
          intro a ha b hb
          obtain ⟨k, hk, rfl⟩ := hchild a (by
            rw [List.mem_reverse] at ha
            exact ha)
          intro hoff
          have hoffe : e.offset = b.offset := by
            simpa [mkSubTileEntry_offset] using hoff
          obtain ⟨hne, hnd1, hnd2⟩ := hErest b hb hoffe
          refine ⟨?_, ?_, ?_⟩
          · intro heq
            have hkb : k = b.tileKey := heq
            exact hnd1 (subtile_descendant (hkb ▸ hk))
          · intro hdesc
            exact hnd1 (descendant_of_subtile hk
              (by simpa [mkSubTileEntry_tileKey] using hdesc))
          · intro hdesc
            have hdesc2 : IsDescendant ctx.tilingScheme b.tileKey k := by
              simpa [mkSubTileEntry_tileKey] using hdesc
            rcases descendant_into_subtile hc hk hdesc2 with heq | hdesc3
            · exact hne.symm heq
            · exact hnd2 hdesc3


/-! ## The invariant at the start of the loop -/

theorem foldl_set_values {K V : Type} [DecidableEq K] {l : List K} {v : V} :
    ∀ {m : JMap K V} {z : K} {w : V}, (∀ p ∈ m, p.2 = v) →
      (z, w) ∈ l.foldl (fun m k => JMap.set m k v) m → w = v := by
  induction l with
  | nil => intro m z w hm h; exact hm _ h
  | cons k l ih =>
      intro m z w hm h
      rw [List.foldl_cons] at h
      refine ih ?_ h
      intro p hp
      rcases JMap.mem_set hp with rfl | hp'
      · rfl
      · exact hm _ hp'

theorem foldl_set_keys {K V : Type} [DecidableEq K] {l : List K} {v : V} :
    ∀ {m : JMap K V} {z : K} {w : V},
      (z, w) ∈ l.foldl (fun m k => JMap.set m k v) m → (∃ w0, (z, w0) ∈ m) ∨ z ∈ l := by
  induction l with
  | nil => intro m z w h; exact Or.inl ⟨w, h⟩
  | cons k l ih =>
      intro m z w h
      rw [List.foldl_cons] at h
      rcases ih h with ⟨w0, hw0⟩ | hz
      · rcases JMap.mem_set hw0 with heq | hm
        · refine Or.inr ?_
          rw [show z = k from congrArg Prod.fst heq]
          exact List.mem_cons_self ..
        · exact Or.inl ⟨w0, hm⟩
      · exact Or.inr (List.mem_cons_of_mem _ hz)

theorem foldl_update_values_nodup {K V : Type} [DecidableEq K] {g : V → V} {l : List K}
    (hl : l.Nodup) : ∀ {m : JMap K V} {z : K} {M : V},
    (z, M) ∈ l.foldl (fun m k => JMap.update m k g) m →
    (z, M) ∈ m ∨ (z ∈ l ∧ ∃ M0, (z, M0) ∈ m ∧ M = g M0) := by
  induction l with
  | nil => intro m z M h; exact Or.inl h
  | cons k l ih =>
      intro m z M h
      rw [List.foldl_cons] at h
      rcases ih (List.nodup_cons.mp hl).2 h with h1 | ⟨hz, M0, hM0, rfl⟩
      · rcases JMap.mem_update_iff.mp h1 with ⟨_, hm⟩ | ⟨rfl, M0, hM0, rfl⟩
        · exact Or.inl hm
        · exact Or.inr ⟨List.mem_cons_self .., M0, hM0, rfl⟩
      · have hzk : z ≠ k := fun ee => (List.nodup_cons.mp hl).1 (ee ▸ hz)
        rcases JMap.mem_update_iff.mp hM0 with ⟨_, hm⟩ | ⟨hzk', _⟩
        · exact Or.inr ⟨List.mem_cons_of_mem _ hz, M0, hm, rfl⟩
        · exact absurd hzk' hzk

/-- Characterization of the maps seeded from a single root entry. -/
theorem seedMaps_singleton_char {uzl : List ℕ} {e0 : TileKeyEntry} {zl : ℕ}
    {M : TileKeyEntries} (hnd : uzl.Nodup) (h : (zl, M) ∈ seedMaps uzl [e0]) :
    zl ∈ uzl ∧
      (M = [] ∨ M = [(getKeyForTileKeyAndOffset e0.tileKey e0.offset, seedEntry e0)]) := by
  have hform : seedMaps uzl [e0] =
      uzl.foldl
        (fun m z => JMap.update m z fun entries =>
          JMap.set entries (getKeyForTileKeyAndOffset e0.tileKey e0.offset) (seedEntry e0))
        (uzl.foldl (fun m z => JMap.set m z JMap.empty) JMap.empty) := by
    unfold seedMaps
    rw [List.foldl_cons, List.foldl_nil]
  rw [hform] at h
  rcases foldl_update_values_nodup hnd h with h0 | ⟨hzl, M0, hM0, rfl⟩
  · have hz := foldl_set_keys h0
    have hv := foldl_set_values (v := (JMap.empty : TileKeyEntries))
      (fun p hp => absurd hp (List.not_mem_nil p)) h0
    rcases hz with ⟨w0, hw0⟩ | hz
    · cases hw0
    · exact ⟨hz, Or.inl hv⟩
  · have hv := foldl_set_values (v := (JMap.empty : TileKeyEntries))
      (fun p hp => absurd hp (List.not_mem_nil p)) hM0
    refine ⟨hzl, Or.inr ?_⟩
    rw [hv]
    rfl

theorem traversalInv_init {ctx : ComputeCtx} (hc : SchemeContract ctx.tilingScheme)
    (hnd : ctx.uniqueZoomLevels.Nodup) (e0 : TileKeyEntry) :
    TraversalInv ctx (seedMaps ctx.uniqueZoomLevels [e0]) [e0] := by
  constructor
  · intro zl M hM
    exact (seedMaps_singleton_char hnd hM).1
  · intro zl M hM p hp
    rcases (seedMaps_singleton_char hnd hM).2 with rfl | rfl
    · cases hp
    · rw [List.mem_singleton.mp hp]
      rfl
  · intro zl M hM p q hp hq _
    rcases (seedMaps_singleton_char hnd hM).2 with rfl | rfl
    · cases hp
    · rw [List.mem_singleton.mp hp, List.mem_singleton.mp hq]
      exact fun hd => IsDescendant.irrefl hc hd
  · intro zl M hM p hp w hw _ _
    rcases (seedMaps_singleton_char hnd hM).2 with rfl | rfl
    · cases hp
    · rw [List.mem_singleton.mp hp, List.mem_singleton.mp hw]
      exact fun hd => IsDescendant.irrefl hc hd
  · intro zl M hM p hp w hw _ _
    rcases (seedMaps_singleton_char hnd hM).2 with rfl | rfl
    · cases hp
    · rw [List.mem_singleton.mp hp, List.mem_singleton.mp hw]
      exact fun hd => IsDescendant.irrefl hc hd
  · exact List.pairwise_singleton ..


/-! ## Claim C1 -/

/-- C1: after every completed `compute` call, in each returned zoom-level map
no two entries with the same offset form an ancestor/descendant pair of tile
keys: each map is a partition of the visible world at effectively one
resolution per branch.  The tiling scheme is assumed to satisfy its
collaborator contract, and the root list is the singleton produced by
`updateFrustum`. -/
theorem partitionInvariant_compute (vi : ViewIntersection) (ts : TilingScheme)
    (hc : SchemeContract ts) (e0 : TileKeyEntry) (hroot : vi.rootTileKeys = [e0])
    (ers : Option ElevationRangeSource) (zls : List ℕ) (dss : List DataSource) (fuel : ℕ)
    (res : IntersectionResult) (vi' : ViewIntersection)
    (h : vi.compute ts ers zls dss fuel = some (res, vi')) :
    ∀ zl M, (zl, M) ∈ res.tileKeyEntries → ∀ p q, p ∈ M → q ∈ M →
      p.2.offset = q.2.offset → ¬ IsDescendant ts p.2.tileKey q.2.tileKey := by
  cases hwb : vi.worldBox with
  | none =>
      rw [compute_def_none hwb] at h
      have h' := Option.some.inj h
      rw [Prod.mk.injEq] at h'
      intro zl M hM
      rw [← h'.1] at hM
      cases hM
  | some wb =>
      rw [compute_def_some hwb] at h
      cases hloop : computeLoop (mkComputeCtx vi ts zls dss wb) fuel
          (seedMaps (jsDedup zls) vi.rootTileKeys) vi.rootTileKeys.reverse with
      | none => rw [hloop] at h; cases h
      | some finalMaps =>
          rw [hloop] at h
          have h' := Option.some.inj h
          rw [Prod.mk.injEq] at h'
          have hres : res.tileKeyEntries = finalMaps := by rw [← h'.1]
          rw [hres]
          rw [hroot] at hloop
          have hinv0 : TraversalInv (mkComputeCtx vi ts zls dss wb)
              (seedMaps (jsDedup zls) [e0]) [e0] :=
            traversalInv_init hc (jsDedup_nodup zls) e0
          have hfin := computeLoop_invariant (mkComputeCtx vi ts zls dss wb)
            (TraversalInv (mkComputeCtx vi ts zls dss wb))
            (fun maps e rest hi => traversalInv_step hc hi)
            fuel (seedMaps (jsDedup zls) [e0]) [e0] finalMaps hinv0 hloop
          exact fun zl M hM p q hp hq hoff => hfin.partitionHolds zl M hM p q hp hq hoff

/-- Witness for C1: a completed concrete run; the partition property applied
at the sole entry of the zoom-0 map. -/
theorem partitionInvariant_compute_witness :
    ¬ IsDescendant quadScheme ⟨0, 0, 0⟩ ⟨0, 0, 0⟩ :=
  partitionInvariant_compute viFull quadScheme quadScheme_contract rootEntryEx rfl
    none [0, 1] [dsNever] 1 resFullNoSub
    { viFull with tileKeyEntries := resFullNoSub.tileKeyEntries } rfl
    0 [((⟨0, 0, 0⟩, 0), rootEntryEx)] (List.Mem.head _)
    ((⟨0, 0, 0⟩, 0), rootEntryEx) ((⟨0, 0, 0⟩, 0), rootEntryEx)
    (List.Mem.head _) (List.Mem.head _) rfl


/-! ## Claim C7 -/

/-- Every entry of the seeded maps is a copy of some root entry. -/
theorem seedMaps_entries {uzl : List ℕ} {roots : List TileKeyEntry} :
    ∀ {zl : ℕ} {M : TileKeyEntries}, (zl, M) ∈ seedMaps uzl roots → ∀ p ∈ M,
      ∃ r ∈ roots, p.2.tileKey = r.tileKey ∧ p.2.offset = r.offset := by
  suffices hs : ∀ m, m = seedMaps uzl roots → ∀ zl M, (zl, M) ∈ m → ∀ p ∈ M,
      ∃ r ∈ roots, p.2.tileKey = r.tileKey ∧ p.2.offset = r.offset by
    intro zl M hM p hp
    exact hs _ rfl zl M hM p hp
  intro m hm
  subst hm
  unfold seedMaps
  refine foldl_preserve _
    (fun (m : ZoomLevelTileKeyMap) => ∀ zl M, (zl, M) ∈ m → ∀ p ∈ M,
      ∃ r ∈ roots, p.2.tileKey = r.tileKey ∧ p.2.offset = r.offset)
    roots _ ?_ ?_
  · intro zl M hM p hp
    have hv := foldl_set_values (v := (JMap.empty : TileKeyEntries))
      (fun q hq => absurd hq (List.not_mem_nil q)) hM
    rw [hv] at hp
    cases hp
  · intro m' r hr hm'
    refine foldl_preserve _
      (fun (m : ZoomLevelTileKeyMap) => ∀ zl M, (zl, M) ∈ m → ∀ p ∈ M,
        ∃ r' ∈ roots, p.2.tileKey = r'.tileKey ∧ p.2.offset = r'.offset)
      uzl _ hm' ?_
    intro m'' z _ hm'' zl M hM p hp
    rcases JMap.mem_update_iff.mp hM with ⟨_, hmm⟩ | ⟨rfl, M0, hM0, rfl⟩
    · exact hm'' _ _ hmm p hp
    · rcases JMap.mem_set hp with rfl | hp0
      · exact ⟨r, hr, rfl, rfl⟩
      · exact hm'' _ _ hM0 p hp0

/-- Entries pushed by one step always pass the intersection test against the
world box. -/
theorem computeStep_pushed_intersect {ctx : ComputeCtx} {maps : ZoomLevelTileKeyMap}
    {e : TileKeyEntry} :
    ∀ c ∈ (computeStep ctx maps e).2,
      geoBoxesIntersect ctx.worldBox (getGeoBox ctx.tilingScheme c.tileKey c.offset) = true := by
  intro c hcm
  cases hdid : didSubdivide ctx e with
  | false =>
      rw [computeStep_stop hdid] at hcm
      cases hcm
  | true =>
      rw [computeStep_subdivide_eq hdid, childFold_pushed_eq] at hcm
      simp only [List.nil_append] at hcm
      rcases List.mem_map.mp hcm with ⟨k, hk, rfl⟩
      have hint := (List.mem_filter.mp hk).2
      exact hint

/-- C7: a child tile key whose longitude-shifted geo-box does not overlap the
WorldBox under the epsilon rule is never materialized: every entry pushed onto
the traversal stack passes the intersection test, and every entry of the
returned maps is either a root copy or passes the intersection test. -/
theorem pruning_correctness (vi : ViewIntersection) (ts : TilingScheme)
    (ers : Option ElevationRangeSource) (zls : List ℕ) (dss : List DataSource) (fuel : ℕ)
    (wb : GeoBox) (res : IntersectionResult) (vi' : ViewIntersection)
    (hwb : vi.worldBox = some wb)
    (h : vi.compute ts ers zls dss fuel = some (res, vi')) :
    (∀ (ctx : ComputeCtx) (maps : ZoomLevelTileKeyMap) (e : TileKeyEntry),
      ∀ c ∈ (computeStep ctx maps e).2,
        geoBoxesIntersect ctx.worldBox (getGeoBox ctx.tilingScheme c.tileKey c.offset) = true) ∧
    (∀ zl M, (zl, M) ∈ res.tileKeyEntries → ∀ p ∈ M,
      (∃ r ∈ vi.rootTileKeys, p.2.tileKey = r.tileKey ∧ p.2.offset = r.offset) ∨
      geoBoxesIntersect wb (getGeoBox ts p.2.tileKey p.2.offset) = true) := by
  refine ⟨fun ctx maps e => computeStep_pushed_intersect, ?_⟩
  rw [compute_def_some hwb] at h
  cases hloop : computeLoop (mkComputeCtx vi ts zls dss wb) fuel
      (seedMaps (jsDedup zls) vi.rootTileKeys) vi.rootTileKeys.reverse with
  | none => rw [hloop] at h; cases h
  | some finalMaps =>
      rw [hloop] at h
      have h' := Option.some.inj h
      rw [Prod.mk.injEq] at h'
      have hres : res.tileKeyEntries = finalMaps := by rw [← h'.1]
      rw [hres]
      have hfin := computeLoop_invariant (mkComputeCtx vi ts zls dss wb)
        (fun m _ => ∀ zl M, (zl, M) ∈ m → ∀ p ∈ M,
          (∃ r ∈ vi.rootTileKeys, p.2.tileKey = r.tileKey ∧ p.2.offset = r.offset) ∨
          geoBoxesIntersect wb (getGeoBox ts p.2.tileKey p.2.offset) = true)
        ?_ fuel (seedMaps (jsDedup zls) vi.rootTileKeys) vi.rootTileKeys.reverse
        finalMaps ?_ hloop
      · exact hfin
      · -- step preservation
        intro maps e rest hi
        intro zl M' hM' p hp
        cases hdid : didSubdivide (mkComputeCtx vi ts zls dss wb) e with
        | false =>
            rw [computeStep_stop hdid] at hM'
            exact hi zl M' hM' p hp
        | true =>
            rw [computeStep_subdivide_eq hdid] at hM'
            obtain ⟨M1, hM1, hsub1⟩ := childFold_maps _ _ hM'
            obtain ⟨M, hM, hsub2⟩ :=
              deleteParent_mem (mkComputeCtx vi ts zls dss wb).uniqueZoomLevels maps hM1
            rcases hsub1 p hp with h1 | ⟨k, _, rfl, _, _, hint⟩
            · exact hi zl M hM p (hsub2 p h1).1
            · exact Or.inr hint
      · -- seeded maps satisfy the invariant
        intro zl M hM p hp
        exact Or.inl (seedMaps_entries hM p hp)

/-- Witness for C7: a completed run over the full globe; the sole map entry is
the root copy. -/
theorem pruning_correctness_witness :
    (∀ (ctx : ComputeCtx) (maps : ZoomLevelTileKeyMap) (e : TileKeyEntry),
      ∀ c ∈ (computeStep ctx maps e).2,
        geoBoxesIntersect ctx.worldBox (getGeoBox ctx.tilingScheme c.tileKey c.offset) = true) ∧
    ((∃ r ∈ viFull.rootTileKeys,
        rootEntryEx.tileKey = r.tileKey ∧ rootEntryEx.offset = r.offset) ∨
      geoBoxesIntersect fullGlobeBox
        (getGeoBox quadScheme rootEntryEx.tileKey rootEntryEx.offset) = true) := by
  have hmain := pruning_correctness viFull quadScheme none [0, 1] [dsNever] 1
    fullGlobeBox resFullNoSub
    { viFull with tileKeyEntries := resFullNoSub.tileKeyEntries } rfl rfl
  exact ⟨hmain.1, hmain.2 0 [((⟨0, 0, 0⟩, 0), rootEntryEx)] (List.Mem.head _)
    ((⟨0, 0, 0⟩, 0), rootEntryEx) (List.Mem.head _)⟩


/-! ## Claim C8 -/

/-- C8: with wraparound disabled (or a projection that does not wrap), root
seeding produces exactly one root entry at level 0, offset 0, with area
`Infinity` and zero elevation range; consequently, after `updateFrustum`, a
`compute` whose data sources never request subdivision completes in one loop
step and returns exactly the seeded maps, which hold that single level-0 root
entry at every requested zoom level. -/
theorem root_seeding (vi0 : ViewIntersection) (ts : TilingScheme)
    (ers : Option ElevationRangeSource) (zls : List ℕ) (dss : List DataSource) (fuel : ℕ)
    (hwrap : vi0.mapView.projectionType ≠ ProjectionType.Planar ∨
      vi0.tileWrappingEnabled = false)
    (hfuel : 1 ≤ fuel)
    (hnosub : ∀ ds ∈ dss, ∀ oz tk, ds.shouldSubdivide oz tk = false) :
    computeRequiredInitialRootTileKeys vi0 =
      [⟨⟨0, 0, 0⟩, AreaVal.infinity, 0, 0, 0, 0⟩] ∧
    vi0.updateFrustum.compute ts ers zls dss fuel =
      some ({ tileKeyEntries := seedMaps (jsDedup zls) [rootEntryEx],
              calculationFinal := true },
            { vi0.updateFrustum with
                tileKeyEntries := seedMaps (jsDedup zls) [rootEntryEx] }) ∧
    ∀ zl ∈ zls,
      ((zl, [(getKeyForTileKeyAndOffset ⟨0, 0, 0⟩ 0, rootEntryEx)]) : ℕ × TileKeyEntries)
        ∈ seedMaps (jsDedup zls) [rootEntryEx] := by
  have hroots : ∀ vi : ViewIntersection,
      computeRequiredInitialRootTileKeys vi = [rootEntryEx] := by
    intro vi
    simp only [computeRequiredInitialRootTileKeys]
    split <;> rfl
  refine ⟨hroots vi0, ?_, ?_⟩
  · have hwbeq : vi0.updateFrustum.worldBox =
        some (match vi0.mapView.geoBox with
              | none => GeoBox.mk ⟨0, 0, 0⟩ ⟨0, 0, 0⟩
              | some gb => gb) := rfl
    rw [compute_def_some hwbeq]
    have hrt : vi0.updateFrustum.rootTileKeys = [rootEntryEx] := hroots _
    rw [hrt]
    rw [@computeLoop_no_subdivide
        (mkComputeCtx vi0.updateFrustum ts zls dss
          (match vi0.mapView.geoBox with
           | none => GeoBox.mk ⟨0, 0, 0⟩ ⟨0, 0, 0⟩
           | some gb => gb))
        (fun tk => anySubdivide_eq_false hnosub) fuel [rootEntryEx].reverse
        (seedMaps (jsDedup zls) [rootEntryEx]) (by simpa using hfuel)]
    simp only [hrt]
  · intro zl hzl
    exact seedMaps_singleton_mem (jsDedup_nodup zls) (jsDedup_mem.mpr hzl)

/-- Witness for C8: wraparound disabled, two requested zoom levels, a data
source that never subdivides. -/
theorem root_seeding_witness :
    computeRequiredInitialRootTileKeys viNoWorldBox =
      [⟨⟨0, 0, 0⟩, AreaVal.infinity, 0, 0, 0, 0⟩] ∧
    (((0 : ℕ), [(getKeyForTileKeyAndOffset ⟨0, 0, 0⟩ 0, rootEntryEx)]) : ℕ × TileKeyEntries)
      ∈ seedMaps (jsDedup [0, 1]) [rootEntryEx] := by
  have h := root_seeding viNoWorldBox quadScheme none [0, 1] [dsNever] 1
    (Or.inr rfl) (by omega) (fun ds hds oz tk => by rw [List.mem_singleton.mp hds]; rfl)
  exact ⟨h.1, h.2.2 0 (by decide)⟩

/-! ## Claim C3 -/

def ctxStub : ComputeCtx := mkComputeCtx viFull quadScheme [2] [dsAlways] fullGlobeBox

/-- C3 (code evidence): the traversal step constructs every surviving child
with the constant placeholder `area = 1` and `distance = 1` (lines 233-234 of
the source), not with values projected through the view-projection matrix —
the projecting code (`computeTileAreaAndDistance`) is commented out. -/
theorem constantAreaDistance_stub :
    (computeStep ctxStub [(2, [])] rootEntryEx).2 =
      [⟨⟨0, 0, 1⟩, AreaVal.finite 1, 0, 0, 0, 1⟩,
       ⟨⟨0, 1, 1⟩, AreaVal.finite 1, 0, 0, 0, 1⟩,
       ⟨⟨1, 0, 1⟩, AreaVal.finite 1, 0, 0, 0, 1⟩,
       ⟨⟨1, 1, 1⟩, AreaVal.finite 1, 0, 0, 0, 1⟩] := by
  norm_num [computeStep, ctxStub, mkComputeCtx, viFull, anySubdivide, dsAlways, rootEntryEx,
    stepChild, mkSubTileEntry, getGeoBox, quadScheme, quadGeoBox, quadSubTileKeys,
    geoBoxesIntersect, GeoBox.west, GeoBox.east, GeoBox.south, GeoBox.north, MaxError,
    fullGlobeBox, deleteParent, JMap.update, JMap.set, JMap.delete, getKeyForTileKeyAndOffset,
    AreaVal.ltQ, jsDedup]

end ViewIntersectionModel
